import Mathlib

/-!
A shallow embedding of the `ezpub` EPUB parse pipeline
(`src/parser/container.rs`, `src/parser/package_document.rs`,
`src/parser/toc.rs`, `src/parser/mod.rs`) together with proofs about it.

XML documents are modelled as already-parsed trees (the `roxmltree` parse
step itself is out of scope; `MalformedXml` never arises on a tree).
`roxmltree` node operations used by the code are embedded faithfully:
`children()`, `descendants()` (self first, document order), `attribute()`,
`has_tag_name(local)` (local name only), `has_tag_name((ns, local))`,
and `Node::text()` (the first child when that child is a text node).
Rust `HashMap` is modelled as an association list where `insert` prepends
and lookup takes the first hit, which reproduces the overwrite-on-insert,
latest-wins behaviour of the real map.
-/

/-- One XML attribute, a name paired with a value. -/
structure Attr where
  name : String
  value : String

/-- An XML tree: an element with an optional namespace, a local tag name,
attributes and children, or a text node. -/
inductive Xml where
  | elem (ns : Option String) (tag : String) (attrs : List Attr) (children : List Xml)
  | text (s : String)

/-- `roxmltree` `Node::children()`: the child list of an element, empty for text. -/
def Xml.childList : Xml → List Xml
  | .elem _ _ _ cs => cs
  | .text _ => []

/-- `roxmltree` `has_tag_name(local)`: local-name-only tag test; false on text nodes. -/
def Xml.isTag (x : Xml) (t : String) : Bool :=
  match x with
  | .elem _ tag _ _ => tag == t
  | .text _ => false

/-- `roxmltree` `has_tag_name((ns, local))`: namespace-qualified tag test. -/
def Xml.isTagNS (x : Xml) (ns t : String) : Bool :=
  match x with
  | .elem n tag _ _ => n == some ns && tag == t
  | .text _ => false

/-- `roxmltree` `Node::attribute(name)`: the value of the named attribute. -/
def Xml.attr (x : Xml) (name : String) : Option String :=
  match x with
  | .elem _ _ attrs _ => (attrs.find? (fun a => a.name == name)).map (fun a => a.value)
  | .text _ => none

/-- `roxmltree` `Node::text()`: a text node's own text; for an element, the
text of its first child when that child is a text node, otherwise `none`. -/
def Xml.textContent : Xml → Option String
  | .text s => some s
  | .elem _ _ _ cs =>
    match cs with
    | .text s :: _ => some s
    | _ => none

mutual

/-- `roxmltree` `Node::descendants()`: the node itself followed by all
descendants in document order (depth first). -/
def Xml.descendants : Xml → List Xml
  | .text s => [.text s]
  | .elem ns t ats cs => .elem ns t ats cs :: Xml.descList cs

/-- Descendants of a list of sibling nodes, in document order. -/
def Xml.descList : List Xml → List Xml
  | [] => []
  | c :: rest => Xml.descendants c ++ Xml.descList rest

end

/-! ## Association-list model of `HashMap` -/

/-- Lookup in the association-list model of `HashMap`: first (most recent) hit. -/
def lookupA {α : Type} (m : List (String × α)) (k : String) : Option α :=
  (m.find? (fun p => p.1 == k)).map (fun p => p.2)

/-! ## Whitespace, `str::trim` and the `\s+` regex (`toc.rs::text_norm`) -/

/-- Unicode `White_Space`, the class matched by Rust `char::is_whitespace`
and by the default (Unicode) `\s` of the `regex` crate. -/
def isWs (c : Char) : Bool :=
  c == ' ' || c == '\t' || c == '\n' || c == '\r' ||
  c.val == 0x0B || c.val == 0x0C || c.val == 0x85 || c.val == 0xA0 ||
  c.val == 0x1680 || (0x2000 ≤ c.val && c.val ≤ 0x200A) ||
  c.val == 0x2028 || c.val == 0x2029 || c.val == 0x202F ||
  c.val == 0x205F || c.val == 0x3000

/-- Rust `str::trim` on a character list: drop whitespace from both ends. -/
def trimL (l : List Char) : List Char :=
  ((l.dropWhile isWs).reverse.dropWhile isWs).reverse

/-- Rust `str::trim` on strings. -/
def trimS (s : String) : String := ⟨trimL s.data⟩

mutual

/-- `Regex::new(r"\s+").replace_all(input, " ")`: every maximal run of
whitespace becomes a single space. -/
def collapseL : List Char → List Char
  | [] => []
  | c :: cs => if isWs c then ' ' :: skipWsL cs else c :: collapseL cs

/-- After emitting the single space for a run, skip the rest of the run. -/
def skipWsL : List Char → List Char
  | [] => []
  | c :: cs => if isWs c then skipWsL cs else c :: collapseL cs

end

/-- The string normalisation inside `nav_doc::text_norm`: trim, then
collapse every whitespace run to one space. -/
def normL (l : List Char) : List Char := collapseL (trimL l)

/-! ## `toc.rs`: the TOC data model and the two sub-parsers -/

/-- `toc.rs::TocNode`. -/
inductive TocNode where
  | mk (title : String) (href : Option String) (children : Option (List TocNode))

/-- Title of a `TocNode`. -/
def TocNode.title : TocNode → String
  | .mk t _ _ => t

/-- Href of a `TocNode`. -/
def TocNode.href : TocNode → Option String
  | .mk _ h _ => h

/-- Children of a `TocNode`. -/
def TocNode.children : TocNode → Option (List TocNode)
  | .mk _ _ c => c

/-- `toc.rs::Toc`. -/
structure Toc where
  contents : List TocNode

/-- Archive-absolute path construction `format!("{}/{}", base_path, href)`. -/
def joinPath (base href : String) : String := base ++ "/" ++ href

mutual

/-- `nav_doc::collect_text`: a text node's content, otherwise the
concatenation of the children's collected text in document order. -/
def collectText : Xml → String
  | .text s => s
  | .elem _ _ _ cs => collectTextList cs

/-- Collected text of a list of sibling nodes. -/
def collectTextList : List Xml → String
  | [] => ""
  | c :: rest => collectText c ++ collectTextList rest

end

/-- `nav_doc::text_norm`: collect descendant text, trim, collapse whitespace. -/
def textNorm (x : Xml) : String := ⟨normL (collectText x).data⟩

mutual

/-- `nav_doc::parse_li`: title and href from the first `<a>` child (else the
first `<span>`, else empty), children from the first `<ol>` child when present
(`none` when absent), its `<li>` children parsed recursively. -/
def parseLi (base : String) : Xml → TocNode
  | .text _ => .mk "" none none
  | .elem _ _ _ cs =>
    let pair :=
      match cs.find? (fun c => c.isTag "a") with
      | some aEl =>
        (textNorm aEl, (aEl.attr "href").map (fun h => joinPath base h))
      | none =>
        match cs.find? (fun c : Xml => c.isTag "span") with
        | some spanEl => (textNorm spanEl, none)
        | none => ("", none)
    TocNode.mk pair.1 pair.2 (firstOlChildren base cs)

/-- Scan for the first `<ol>` sibling; parse its `<li>` children when found. -/
def firstOlChildren (base : String) : List Xml → Option (List TocNode)
  | [] => none
  | .text _ :: rest => firstOlChildren base rest
  | .elem _ t _ ocs :: rest =>
    if t == "ol" then some (parseLiFilter base ocs)
    else firstOlChildren base rest

/-- `ol.children().filter(has_tag_name("li")).map(parse_li).collect()`. -/
def parseLiFilter (base : String) : List Xml → List TocNode
  | [] => []
  | c :: rest =>
    if c.isTag "li" then parseLi base c :: parseLiFilter base rest
    else parseLiFilter base rest

end

/-- `nav_doc::parse`: find the first descendant `nav` with `id="toc"`, then
its first direct `ol` child, and parse that element's `li` children. -/
def navDocParse (doc : Xml) (base : String) : Except String (List TocNode) :=
  match doc.descendants.find? (fun n => n.isTag "nav" && n.attr "id" == some "toc") with
  | none => .error "nav(id=toc) node not found"
  | some navEl =>
    match navEl.childList.find? (fun n => n.isTag "ol") with
    | none => .error "top level ol node not found"
    | some olEl => .ok (parseLiFilter base olEl.childList)

mutual

/-- `ncx::parse_nav_point`: title from `navLabel/text`, href from the first
`content` child's `src`, children from the direct `navPoint` children with an
empty recursion collapsed to `none`. -/
def parseNavPoint (base : String) : Xml → TocNode
  | .text _ => .mk "" none none
  | .elem _ _ _ cs =>
    let title :=
      (((cs.find? (fun n => n.isTag "navLabel")).bind
          (fun nl => nl.childList.find? (fun n => n.isTag "text"))).bind
        Xml.textContent).getD ""
    let href :=
      (cs.find? (fun n => n.isTag "content")).bind
        (fun c => (c.attr "src").map (fun s => joinPath base s))
    let kids := parseNavPointFilter base cs
    TocNode.mk title href (if kids.isEmpty then none else some kids)

/-- `children().filter(has_tag_name("navPoint")).map(parse_nav_point).collect()`. -/
def parseNavPointFilter (base : String) : List Xml → List TocNode
  | [] => []
  | c :: rest =>
    if c.isTag "navPoint" then parseNavPoint base c :: parseNavPointFilter base rest
    else parseNavPointFilter base rest

end

/-- `ncx::parse`: find the first descendant `navMap` and parse its direct
`navPoint` children. -/
def ncxParse (doc : Xml) (base : String) : Except String (List TocNode) :=
  match doc.descendants.find? (fun n => n.isTag "navMap") with
  | none => .error "navMap node not found"
  | some nm => .ok (parseNavPointFilter base nm.childList)

mutual

/-- All nodes of a `TocNode` tree, the root included. -/
def TocNode.allNodes : TocNode → List TocNode
  | .mk t h c => .mk t h c :: allNodesOpt c

/-- Nodes reachable through an optional child list. -/
def allNodesOpt : Option (List TocNode) → List TocNode
  | none => []
  | some l => allNodesList l

/-- Nodes reachable through a child list. -/
def allNodesList : List TocNode → List TocNode
  | [] => []
  | n :: rest => TocNode.allNodes n ++ allNodesList rest

end

/-! ## `container.rs` -/

/-- `container.rs::RootFile`. -/
structure RootFile where
  base_path : String
  full_path : String

/-- `PathBuf::pop` as used in `Container::from`: the portion of the path
before its final `/`-separated segment, empty when there is no separator. -/
def basePathOf (p : String) : String :=
  match p.data.reverse.dropWhile (fun c => c != '/') with
  | [] => ""
  | _ :: rest => ⟨rest.reverse⟩

/-- `Container::from` on a parsed tree: every descendant whose local name is
`rootfile` and which carries a `full-path` attribute becomes a `RootFile`,
in document order. -/
def containerFrom (doc : Xml) : List RootFile :=
  doc.descendants.filterMap (fun n =>
    if n.isTag "rootfile" && (n.attr "full-path").isSome then
      some ⟨basePathOf ((n.attr "full-path").getD ""), (n.attr "full-path").getD ""⟩
    else none)

/-! ## `package_document.rs` -/

/-- The Dublin Core namespace constant `NAMESPACE_DC`. -/
def NAMESPACE_DC : String := "http://purl.org/dc/elements/1.1/"

/-- `package_document.rs::PackageDocument`. The `manifest` field is the
`manifest_by_path` projection. -/
structure PackageDocument where
  title : String
  language : String
  cover_image_path : Option String
  spine : List String
  manifest : List (String × Option String)
  toc_ncx_path : Option String
  toc_nav_doc_path : Option String

/-- `PackageDocument::parse_metadata`: first namespace-qualified DC `title`
and `language` children, direct text trimmed, defaulting to the empty string. -/
def parse_metadata (metadataEl : Xml) : String × String :=
  (((metadataEl.childList.find? (fun n => n.isTagNS NAMESPACE_DC "title")).map
      (fun n => trimS (n.textContent.getD ""))).getD "",
   ((metadataEl.childList.find? (fun n => n.isTagNS NAMESPACE_DC "language")).map
      (fun n => trimS (n.textContent.getD ""))).getD "")

/-- The four accumulators of `PackageDocument::parse_manifest`. -/
structure ManifestResult where
  cover_image_path : Option String
  toc_nav_doc_path : Option String
  byId : List (String × String)
  byPath : List (String × Option String)

/-- One iteration of the `parse_manifest` loop body for an `<item>` node. -/
def manifestStep (base : String) (st : ManifestResult) (node : Xml) : ManifestResult :=
  let st1 :=
    if node.attr "properties" == some "cover-image" then
      { st with cover_image_path := (node.attr "href").map (fun h => joinPath base h) }
    else st
  let st2 :=
    if node.attr "properties" == some "nav" then
      { st1 with toc_nav_doc_path := (node.attr "href").map (fun h => joinPath base h) }
    else st1
  if (node.attr "id").isSome && (node.attr "href").isSome then
    { st2 with
      byId := ((node.attr "id").getD "", joinPath base ((node.attr "href").getD ""))
                :: st2.byId,
      byPath := (joinPath base ((node.attr "href").getD ""), node.attr "media-type")
                :: st2.byPath }
  else st2

/-- `PackageDocument::parse_manifest`: fold the loop body over the `<item>`
children of `<manifest>` in document order. -/
def parse_manifest (manifestEl : Xml) (base : String) : ManifestResult :=
  (manifestEl.childList.filter (fun n => n.isTag "item")).foldl
    (manifestStep base) ⟨none, none, [], []⟩

/-- `PackageDocument::parse_spine`: the `ncx` marker (`toc` attribute equal to
the literal `"ncx"`), and the spine as the `manifest_by_id` images of the
`<itemref>` children whose `idref` is present and resolves. -/
def parse_spine (spineEl : Xml) (byId : List (String × String)) :
    Option String × List String :=
  let ncx := (spineEl.attr "toc").bind
    (fun toc => if toc == "ncx" then some "ncx" else none)
  let spine := (spineEl.childList.filter (fun n =>
      n.isTag "itemref" &&
      match n.attr "idref" with
      | some i => (lookupA byId i).isSome
      | none => false)).map
    (fun n => (lookupA byId ((n.attr "idref").getD "")).getD "")
  (ncx, spine)

/-- `PackageDocument::from` on the parsed `<package>` root element: require
the `metadata`, `manifest` and `spine` children, then assemble the record;
`toc_ncx_path` is the `manifest_by_id` image of the `ncx` marker. -/
def pkgDocFrom (packageEl : Xml) (base : String) : Except String PackageDocument :=
  match packageEl.childList.find? (fun n => n.isTag "metadata") with
  | none => .error "metadata node not found"
  | some metadataEl =>
    let md := parse_metadata metadataEl
    match packageEl.childList.find? (fun n => n.isTag "manifest") with
    | none => .error "manifest node not found"
    | some manifestEl =>
      let mr := parse_manifest manifestEl base
      match packageEl.childList.find? (fun n => n.isTag "spine") with
      | none => .error "spine node not found"
      | some spineEl =>
        let sp := parse_spine spineEl mr.byId
        .ok { title := md.1, language := md.2,
              cover_image_path := mr.cover_image_path,
              spine := sp.2, manifest := mr.byPath,
              toc_ncx_path := sp.1.bind (fun i => lookupA mr.byId i),
              toc_nav_doc_path := mr.toc_nav_doc_path }

/-! ## `mod.rs`: the façade -/

/-- The archive as seen by `meta()`: for each entry path, the parsed XML tree
of that entry's text, or `none` when the entry is missing or unreadable. -/
structure Archive where
  entries : String → Option Xml

/-- The fixed container location `CONTAINER_PATH`. -/
def CONTAINER_PATH : String := "META-INF/container.xml"

/-- The error outcomes of `Parser::meta` (taxonomy of `anyhow` messages). -/
inductive MetaError where
  | entryUnreadable (path : String)
  | noRootFile
  | pkgError (e : String)
  | tocError (e : String)
  | noToc
deriving DecidableEq

/-- `mod.rs::BookMeta`. -/
structure BookMeta where
  title : String
  manifest : List (String × Option String)
  spine : List String
  toc : Toc

/-- The TOC selection step of `Parser::meta`: nav-doc strictly preferred,
then NCX, else the `no toc found` error. -/
def tocFor (ar : Archive) (base : String) (pkg : PackageDocument) :
    Except MetaError Toc :=
  match pkg.toc_nav_doc_path with
  | some p =>
    match ar.entries p with
    | none => .error (.entryUnreadable p)
    | some d =>
      match navDocParse d base with
      | .error e => .error (.tocError e)
      | .ok cs => .ok ⟨cs⟩
  | none =>
    match pkg.toc_ncx_path with
    | some p =>
      match ar.entries p with
      | none => .error (.entryUnreadable p)
      | some d =>
        match ncxParse d base with
        | .error e => .error (.tocError e)
        | .ok cs => .ok ⟨cs⟩
    | none => .error .noToc

/-- `Parser::meta` from the first root-file onwards: read and parse the OPF,
then select and parse the TOC. -/
def metaFromRoot (ar : Archive) (rf : RootFile) : Except MetaError BookMeta :=
  match ar.entries rf.full_path with
  | none => .error (.entryUnreadable rf.full_path)
  | some pdoc =>
    match pkgDocFrom pdoc rf.base_path with
    | .error e => .error (.pkgError e)
    | .ok pkg =>
      match tocFor ar rf.base_path pkg with
      | .error e => .error e
      | .ok toc => .ok ⟨pkg.title, pkg.manifest, pkg.spine, toc⟩

/-- `Parser::meta`: read the container, reject an empty root-file list with
the `no rootfile found` error, and continue from the first root-file. -/
def meta (ar : Archive) : Except MetaError BookMeta :=
  match ar.entries CONTAINER_PATH with
  | none => .error (.entryUnreadable CONTAINER_PATH)
  | some cdoc =>
    match containerFrom cdoc with
    | [] => .error .noRootFile
    | rf :: _ => metaFromRoot ar rf

/-! ## Helper lemmas about whitespace collapsing (for `text_norm`) -/

/-- The head surviving `dropWhile isWs` is not whitespace. -/
theorem head_dropWhile_isWs :
    ∀ (l : List Char) (c : Char), (l.dropWhile isWs).head? = some c → isWs c = false := by
  intro l
  induction l with
  | nil => intro c h; simp at h
  | cons d rest ih =>
    intro c h
    by_cases hd : isWs d = true
    · rw [List.dropWhile_cons_of_pos hd] at h
      exact ih c h
    · rw [List.dropWhile_cons_of_neg hd] at h
      simp at h
      subst h
      simpa using hd

/-- Appending at the head does not change `getLast?` of a nonempty tail. -/
theorem getLast?_cons_ne {c : Char} {cs : List Char} (h : cs ≠ []) :
    (c :: cs).getLast? = cs.getLast? := by
  cases cs with
  | nil => exact absurd rfl h
  | cons d rest => exact List.getLast?_cons_cons

/-- `dropWhile` keeps the last element when its result is nonempty. -/
theorem getLast?_dropWhile_isWs :
    ∀ (l : List Char), l.dropWhile isWs ≠ [] →
      (l.dropWhile isWs).getLast? = l.getLast? := by
  intro l
  induction l with
  | nil => intro h; simp at h
  | cons d rest ih =>
    intro h
    by_cases hd : isWs d = true
    · rw [List.dropWhile_cons_of_pos hd] at h ⊢
      rw [ih h]
      have hrest : rest ≠ [] := by
        intro hr; rw [hr] at h; simp at h
      exact (getLast?_cons_ne hrest).symm
    · rw [List.dropWhile_cons_of_neg hd]

/-- The head of a trimmed list is not whitespace. -/
theorem trim_head_not_ws (l : List Char) (c : Char)
    (h : (trimL l).head? = some c) : isWs c = false := by
  unfold trimL at h
  rw [List.head?_reverse] at h
  by_cases h2 : ((l.dropWhile isWs).reverse.dropWhile isWs) = []
  · rw [h2] at h; simp at h
  · rw [getLast?_dropWhile_isWs _ h2, List.getLast?_reverse] at h
    exact head_dropWhile_isWs _ _ h

/-- The last element of a trimmed list is not whitespace. -/
theorem trim_getLast_not_ws (l : List Char) (c : Char)
    (h : (trimL l).getLast? = some c) : isWs c = false := by
  unfold trimL at h
  rw [List.getLast?_reverse] at h
  exact head_dropWhile_isWs _ _ h

/-- `collapseL` never maps a nonempty list to the empty list. -/
theorem collapse_eq_nil_iff (l : List Char) : collapseL l = [] ↔ l = [] := by
  cases l with
  | nil => simp [collapseL]
  | cons c cs =>
    constructor
    · intro h
      by_cases hc : isWs c = true <;> simp [collapseL, hc] at h
    · intro h; exact absurd h (by simp)

/-- `skipWsL` returns the empty list exactly on all-whitespace input. -/
theorem skipWs_eq_nil_iff :
    ∀ l : List Char, skipWsL l = [] ↔ ∀ c ∈ l, isWs c = true := by
  intro l
  induction l with
  | nil => simp [skipWsL]
  | cons c cs ih =>
    by_cases hc : isWs c = true
    · simp only [skipWsL, hc, if_pos]
      rw [ih]
      constructor
      · intro h d hd
        rcases List.mem_cons.mp hd with h1 | h1
        · rw [h1]; exact hc
        · exact h d h1
      · intro h d hd; exact h d (List.mem_cons_of_mem _ hd)
    · simp only [skipWsL, hc, if_neg, Bool.false_eq_true, not_false_iff]
      constructor
      · intro h; simp at h
      · intro h
        exact absurd (h c (List.mem_cons_self c cs)) (by simpa using hc)

/-- On input whose head is not whitespace, `skipWsL` agrees with `collapseL`. -/
theorem skipWs_eq_collapse_of_head (l : List Char)
    (h : ∀ c, l.head? = some c → isWs c = false) : skipWsL l = collapseL l := by
  cases l with
  | nil => rfl
  | cons c cs =>
    have hc : isWs c = false := h c rfl
    simp [skipWsL, collapseL, hc]

/-- Canonical whitespace shape: no two adjacent whitespace characters, and
every whitespace character is the single space. -/
def CanonL (l : List Char) : Prop :=
  l.Chain' (fun a b => isWs a = false ∨ isWs b = false) ∧
    ∀ c ∈ l, isWs c = true → c = ' '

/-- The outputs of `collapseL` and `skipWsL` are canonical, and `skipWsL`
starts with a non-whitespace character. -/
theorem canon_collapse_skipWs :
    ∀ l : List Char, CanonL (collapseL l) ∧ CanonL (skipWsL l) ∧
      (∀ c, (skipWsL l).head? = some c → isWs c = false) := by
  intro l
  induction l with
  | nil => refine ⟨⟨?_, ?_⟩, ⟨?_, ?_⟩, ?_⟩ <;> simp [collapseL, skipWsL]
  | cons c cs ih =>
    obtain ⟨ihc, ihs, ihh⟩ := ih
    by_cases hc : isWs c = true
    · have hcol : collapseL (c :: cs) = ' ' :: skipWsL cs := by
        simp [collapseL, hc]
      have hskip : skipWsL (c :: cs) = skipWsL cs := by
        simp [skipWsL, hc]
      refine ⟨?_, ?_, ?_⟩
      · rw [hcol]
        constructor
        · rw [List.chain'_cons']
          refine ⟨?_, ihs.1⟩
          intro y hy
          right
          exact ihh y (by simpa using hy)
        · intro d hd hws
          rcases List.mem_cons.mp hd with h1 | h1
          · exact h1
          · exact ihs.2 d h1 hws
      · rw [hskip]; exact ihs
      · rw [hskip]; exact ihh
    · have hc' : isWs c = false := by simpa using hc
      have hcol : collapseL (c :: cs) = c :: collapseL cs := by
        simp [collapseL, hc']
      have hskip : skipWsL (c :: cs) = c :: collapseL cs := by
        simp [skipWsL, hc']
      have hcanon : CanonL (c :: collapseL cs) := by
        constructor
        · rw [List.chain'_cons']
          exact ⟨fun y _ => Or.inl hc', ihc.1⟩
        · intro d hd hws
          rcases List.mem_cons.mp hd with h1 | h1
          · subst h1; rw [hws] at hc'; cases hc'
          · exact ihc.2 d h1 hws
      refine ⟨?_, ?_, ?_⟩
      · rw [hcol]; exact hcanon
      · rw [hskip]; exact hcanon
      · rw [hskip]
        intro d hd
        simp at hd
        subst hd
        exact hc'

/-- A canonical list is a fixed point of `collapseL`. -/
theorem collapse_eq_self_of_canon :
    ∀ l : List Char, CanonL l → collapseL l = l := by
  intro l
  induction l with
  | nil => intro _; rfl
  | cons c cs ih =>
    intro hcanon
    obtain ⟨hchain, hmem⟩ := hcanon
    have hcs : CanonL cs :=
      ⟨(List.chain'_cons'.mp hchain).2, fun d hd => hmem d (List.mem_cons_of_mem _ hd)⟩
    by_cases hc : isWs c = true
    · have hspace : c = ' ' := hmem c (List.mem_cons_self c cs) hc
      have hhead : ∀ d, cs.head? = some d → isWs d = false := by
        intro d hd
        have := (List.chain'_cons'.mp hchain).1 d hd
        rcases this with h1 | h1
        · rw [hc] at h1; cases h1
        · exact h1
      have : collapseL (c :: cs) = ' ' :: skipWsL cs := by simp [collapseL, hc]
      rw [this, skipWs_eq_collapse_of_head cs hhead, ih hcs, hspace]
    · have hc' : isWs c = false := by simpa using hc
      have : collapseL (c :: cs) = c :: collapseL cs := by simp [collapseL, hc']
      rw [this, ih hcs]

/-- `collapseL` keeps a non-whitespace head unchanged. -/
theorem collapse_head_of_not_ws (l : List Char)
    (h : ∀ c, l.head? = some c → isWs c = false) : (collapseL l).head? = l.head? := by
  cases l with
  | nil => rfl
  | cons c cs =>
    have hc : isWs c = false := h c rfl
    simp [collapseL, hc]

/-- `collapseL` and `skipWsL` keep the last element non-whitespace when the
input ends in a non-whitespace character. -/
theorem collapse_getLast_not_ws :
    ∀ l : List Char, (∀ c, l.getLast? = some c → isWs c = false) →
      (∀ c, (collapseL l).getLast? = some c → isWs c = false) ∧
      (∀ c, (skipWsL l).getLast? = some c → isWs c = false) := by
  intro l
  induction l with
  | nil => intro _; constructor <;> intro c h <;> simp [collapseL, skipWsL] at h
  | cons d rest ih =>
    intro hlast
    by_cases hrest : rest = []
    · subst hrest
      by_cases hd : isWs d = true
      · have : isWs d = false := hlast d rfl
        rw [hd] at this; cases this
      · have hd' : isWs d = false := by simpa using hd
        constructor
        · intro c h
          simp [collapseL, skipWsL, hd'] at h
          subst h; exact hd'
        · intro c h
          simp [collapseL, skipWsL, hd'] at h
          subst h; exact hd'
    · have hlast' : ∀ c, rest.getLast? = some c → isWs c = false := by
        intro c h
        apply hlast
        rw [getLast?_cons_ne hrest]
        exact h
      obtain ⟨ihc, ihs⟩ := ih hlast'
      by_cases hd : isWs d = true
      · have hcol : collapseL (d :: rest) = ' ' :: skipWsL rest := by
          simp [collapseL, hd]
        have hskip : skipWsL (d :: rest) = skipWsL rest := by
          simp [skipWsL, hd]
        constructor
        · intro c h
          rw [hcol] at h
          by_cases hnil : skipWsL rest = []
          · rw [hnil] at h
            simp at h
            subst h
            exfalso
            have hall : ∀ c ∈ rest, isWs c = true := (skipWs_eq_nil_iff rest).mp hnil
            have hx : rest.getLast? = some (rest.getLast hrest) :=
              List.getLast?_eq_getLast rest hrest
            have h1 : isWs (rest.getLast hrest) = false := hlast' _ hx
            have h2 : isWs (rest.getLast hrest) = true :=
              hall _ (List.mem_of_getLast?_eq_some hx)
            rw [h2] at h1; cases h1
          · rw [getLast?_cons_ne hnil] at h
            exact ihs c h
        · intro c h
          rw [hskip] at h
          exact ihs c h
      · have hd' : isWs d = false := by simpa using hd
        have hcol : collapseL (d :: rest) = d :: collapseL rest := by
          simp [collapseL, hd']
        have hskip : skipWsL (d :: rest) = d :: collapseL rest := by
          simp [skipWsL, hd']
        have hcore : ∀ c, (d :: collapseL rest).getLast? = some c → isWs c = false := by
          intro c h
          by_cases hnil : collapseL rest = []
          · rw [hnil] at h
            simp at h
            subst h
            exact hd'
          · rw [getLast?_cons_ne hnil] at h
            exact ihc c h
        constructor
        · intro c h; rw [hcol] at h; exact hcore c h
        · intro c h; rw [hskip] at h; exact hcore c h

/-- A list with non-whitespace head and last element is a `trimL` fixed point. -/
theorem trim_eq_self (l : List Char)
    (hh : ∀ c, l.head? = some c → isWs c = false)
    (hl : ∀ c, l.getLast? = some c → isWs c = false) : trimL l = l := by
  have h1 : l.dropWhile isWs = l := by
    cases l with
    | nil => rfl
    | cons c cs => exact List.dropWhile_cons_of_neg (by simp [hh c rfl])
  unfold trimL
  rw [h1]
  have h2 : l.reverse.dropWhile isWs = l.reverse := by
    cases hrev : l.reverse with
    | nil => rfl
    | cons c cs =>
      have : l.getLast? = some c := by
        rw [← List.head?_reverse, hrev]; rfl
      rw [List.dropWhile_cons_of_neg (by simp [hl c this])]
  rw [h2, List.reverse_reverse]

/-- The head of `normL` output is not whitespace. -/
theorem norm_head_not_ws (l : List Char) (c : Char)
    (h : (normL l).head? = some c) : isWs c = false := by
  unfold normL at h
  rw [collapse_head_of_not_ws _ (trim_head_not_ws l)] at h
  exact trim_head_not_ws l c h

/-- The last element of `normL` output is not whitespace. -/
theorem norm_getLast_not_ws (l : List Char) (c : Char)
    (h : (normL l).getLast? = some c) : isWs c = false :=
  (collapse_getLast_not_ws (trimL l) (trim_getLast_not_ws l)).1 c h

/-- The string-level normalisation of `text_norm` is idempotent. -/
theorem norm_idem (l : List Char) : normL (normL l) = normL l := by
  have htrim : trimL (normL l) = normL l :=
    trim_eq_self _ (norm_head_not_ws l) (norm_getLast_not_ws l)
  have hcanon : CanonL (normL l) := (canon_collapse_skipWs (trimL l)).1
  show collapseL (trimL (normL l)) = normL l
  rw [htrim]
  exact collapse_eq_self_of_canon _ hcanon

/-- C8: `text_norm` is idempotent: feeding the normalised text of any node
back through `text_norm` (as the text it is) returns it unchanged. -/
theorem text_norm_idempotent (x : Xml) :
    textNorm (Xml.text (textNorm x)) = textNorm x := by
  show String.mk (normL (collectText (Xml.text (textNorm x))).data) = textNorm x
  have h1 : collectText (Xml.text (textNorm x)) = textNorm x := rfl
  rw [h1]
  show String.mk (normL (normL (collectText x).data)) = textNorm x
  rw [norm_idem]
  rfl

/-! ## Helper lemmas about the manifest fold -/

/-- The `cover_image_path` field after one loop iteration. -/
theorem manifestStep_cover (base : String) (st : ManifestResult) (it : Xml) :
    (manifestStep base st it).cover_image_path =
      if it.attr "properties" == some "cover-image"
      then (it.attr "href").map (fun h => joinPath base h)
      else st.cover_image_path := by
  simp only [manifestStep]
  split_ifs <;> rfl

/-- The `toc_nav_doc_path` field after one loop iteration. -/
theorem manifestStep_nav (base : String) (st : ManifestResult) (it : Xml) :
    (manifestStep base st it).toc_nav_doc_path =
      if it.attr "properties" == some "nav"
      then (it.attr "href").map (fun h => joinPath base h)
      else st.toc_nav_doc_path := by
  simp only [manifestStep]
  split_ifs <;> rfl

/-- The `byId` field after one loop iteration. -/
theorem manifestStep_byId (base : String) (st : ManifestResult) (it : Xml) :
    (manifestStep base st it).byId =
      if (it.attr "id").isSome && (it.attr "href").isSome
      then ((it.attr "id").getD "", joinPath base ((it.attr "href").getD "")) :: st.byId
      else st.byId := by
  simp only [manifestStep]
  split_ifs <;> rfl

/-- The `byPath` field after one loop iteration. -/
theorem manifestStep_byPath (base : String) (st : ManifestResult) (it : Xml) :
    (manifestStep base st it).byPath =
      if (it.attr "id").isSome && (it.attr "href").isSome
      then (joinPath base ((it.attr "href").getD ""), it.attr "media-type") :: st.byPath
      else st.byPath := by
  simp only [manifestStep]
  split_ifs <;> rfl

/-- Folding the manifest loop: the final `cover_image_path` is decided by the
last item claiming `properties="cover-image"` (scanned here as the first of the
reversed list), and falls back to the incoming state. -/
theorem foldl_cover (base : String) :
    ∀ (items : List Xml) (st : ManifestResult),
      ((items.foldl (manifestStep base) st).cover_image_path) =
        ((items.reverse.find? (fun n => n.attr "properties" == some "cover-image")).map
          (fun it => (it.attr "href").map (fun h => joinPath base h))).getD
          st.cover_image_path := by
  intro items
  induction items with
  | nil => intro st; rfl
  | cons it rest ih =>
    intro st
    rw [List.foldl_cons, ih, List.reverse_cons, List.find?_append]
    cases hfind : rest.reverse.find? (fun n => n.attr "properties" == some "cover-image") with
    | some n => simp
    | none =>
      simp only [Option.none_or]
      by_cases hp : (it.attr "properties" == some "cover-image") = true
      · simp [hp, manifestStep_cover]
      · have h1 : [it].find? (fun n => n.attr "properties" == some "cover-image") = none := by
          simp [hp]
        simp only [manifestStep_cover, hp, if_neg, Bool.false_eq_true, not_false_iff, h1,
          Option.map_none', Option.getD_none]

/-- Folding the manifest loop: the final `toc_nav_doc_path` is decided by the
last item claiming `properties="nav"`. -/
theorem foldl_nav (base : String) :
    ∀ (items : List Xml) (st : ManifestResult),
      ((items.foldl (manifestStep base) st).toc_nav_doc_path) =
        ((items.reverse.find? (fun n => n.attr "properties" == some "nav")).map
          (fun it => (it.attr "href").map (fun h => joinPath base h))).getD
          st.toc_nav_doc_path := by
  intro items
  induction items with
  | nil => intro st; rfl
  | cons it rest ih =>
    intro st
    rw [List.foldl_cons, ih, List.reverse_cons, List.find?_append]
    cases hfind : rest.reverse.find? (fun n => n.attr "properties" == some "nav") with
    | some n => simp
    | none =>
      simp only [Option.none_or]
      by_cases hp : (it.attr "properties" == some "nav") = true
      · simp [hp, manifestStep_nav]
      · have h1 : [it].find? (fun n => n.attr "properties" == some "nav") = none := by
          simp [hp]
        simp only [manifestStep_nav, hp, if_neg, Bool.false_eq_true, not_false_iff, h1,
          Option.map_none', Option.getD_none]

/-- Lookup through one prepended pair. -/
theorem lookupA_cons {α : Type} (k : String) (v : α) (m : List (String × α)) (i : String) :
    lookupA ((k, v) :: m) i = if k == i then some v else lookupA m i := by
  simp only [lookupA, List.find?_cons]
  cases h : k == i <;> simp [h]

/-- Folding the manifest loop: `manifest_by_id` lookup is decided by the last
item carrying both `id` and `href` whose `id` is the key. -/
theorem lookup_byId_fold (base : String) :
    ∀ (items : List Xml) (st : ManifestResult) (i : String),
      lookupA ((items.foldl (manifestStep base) st).byId) i =
        ((items.reverse.find? (fun n =>
            ((n.attr "id").isSome && (n.attr "href").isSome) && n.attr "id" == some i)).map
          (fun n => joinPath base ((n.attr "href").getD ""))).or (lookupA st.byId i) := by
  intro items
  induction items with
  | nil => intro st i; rfl
  | cons it rest ih =>
    intro st i
    rw [List.foldl_cons, ih, List.reverse_cons, List.find?_append]
    cases hfind : rest.reverse.find? (fun n =>
        ((n.attr "id").isSome && (n.attr "href").isSome) && n.attr "id" == some i) with
    | some n => simp
    | none =>
      simp only [Option.none_or]
      cases hid : it.attr "id" with
      | none =>
        have hq : (((it.attr "id").isSome && (it.attr "href").isSome) &&
            it.attr "id" == some i) = false := by simp [hid]
        have hstep : (manifestStep base st it).byId = st.byId := by
          rw [manifestStep_byId, if_neg (by simp [hid])]
        simp [hstep, hq]
      | some a =>
        cases hhref : it.attr "href" with
        | none =>
          have hq : (((it.attr "id").isSome && (it.attr "href").isSome) &&
              it.attr "id" == some i) = false := by simp [hhref]
          have hstep : (manifestStep base st it).byId = st.byId := by
            rw [manifestStep_byId, if_neg (by simp [hhref])]
          simp [hstep, hq]
        | some h =>
          have hstep : (manifestStep base st it).byId =
              (a, joinPath base h) :: st.byId := by
            rw [manifestStep_byId, if_pos (by simp [hid, hhref])]
            simp [hid, hhref]
          rw [hstep, lookupA_cons]
          cases hai : a == i with
          | true =>
            have hq : (((it.attr "id").isSome && (it.attr "href").isSome) &&
                it.attr "id" == some i) = true := by simp [hid, hhref, hai]
            simp [hq, hid, hhref, eq_of_beq hai]
          | false =>
            have hq : (((it.attr "id").isSome && (it.attr "href").isSome) &&
                it.attr "id" == some i) = false := by simp [hid, hhref, hai]
            simp [hq, hai]

/-- Folding the manifest loop: `manifest_by_path` lookup is decided by the
last item carrying both `id` and `href` whose joined path is the key. -/
theorem lookup_byPath_fold (base : String) :
    ∀ (items : List Xml) (st : ManifestResult) (p : String),
      lookupA ((items.foldl (manifestStep base) st).byPath) p =
        ((items.reverse.find? (fun n =>
            ((n.attr "id").isSome && (n.attr "href").isSome) &&
              joinPath base ((n.attr "href").getD "") == p)).map
          (fun n => n.attr "media-type")).or (lookupA st.byPath p) := by
  intro items
  induction items with
  | nil => intro st p; rfl
  | cons it rest ih =>
    intro st p
    rw [List.foldl_cons, ih, List.reverse_cons, List.find?_append]
    cases hfind : rest.reverse.find? (fun n =>
        ((n.attr "id").isSome && (n.attr "href").isSome) &&
          joinPath base ((n.attr "href").getD "") == p) with
    | some n => simp
    | none =>
      simp only [Option.none_or]
      cases hid : it.attr "id" with
      | none =>
        have hq : (((it.attr "id").isSome && (it.attr "href").isSome) &&
            joinPath base ((it.attr "href").getD "") == p) = false := by simp [hid]
        have hstep : (manifestStep base st it).byPath = st.byPath := by
          rw [manifestStep_byPath, if_neg (by simp [hid])]
        simp [hstep, hq]
      | some a =>
        cases hhref : it.attr "href" with
        | none =>
          have hq : (((it.attr "id").isSome && (it.attr "href").isSome) &&
              joinPath base ((it.attr "href").getD "") == p) = false := by simp [hhref]
          have hstep : (manifestStep base st it).byPath = st.byPath := by
            rw [manifestStep_byPath, if_neg (by simp [hhref])]
          simp [hstep, hq]
        | some h =>
          have hstep : (manifestStep base st it).byPath =
              (joinPath base h, it.attr "media-type") :: st.byPath := by
            rw [manifestStep_byPath, if_pos (by simp [hid, hhref])]
            simp [hhref]
          rw [hstep, lookupA_cons]
          cases hai : joinPath base h == p with
          | true =>
            have hq : (((it.attr "id").isSome && (it.attr "href").isSome) &&
                joinPath base ((it.attr "href").getD "") == p) = true := by
              simp [hid, hhref, hai]
            simp [hq, hid, hhref, eq_of_beq hai]
          | false =>
            have hq : (((it.attr "id").isSome && (it.attr "href").isSome) &&
                joinPath base ((it.attr "href").getD "") == p) = false := by
              simp [hid, hhref, hai]
            simp [hq, hai]

/-- Every path registered in `manifest_by_id` is registered in
`manifest_by_path` too, throughout the manifest fold. -/
theorem byId_byPath_sync (base : String) :
    ∀ (items : List Xml) (st : ManifestResult),
      (∀ i p, lookupA st.byId i = some p → (lookupA st.byPath p).isSome = true) →
      ∀ i p, lookupA ((items.foldl (manifestStep base) st).byId) i = some p →
        (lookupA ((items.foldl (manifestStep base) st).byPath) p).isSome = true := by
  intro items
  induction items with
  | nil => intro st hinv; exact hinv
  | cons it rest ih =>
    intro st hinv
    rw [List.foldl_cons]
    apply ih
    intro i p hlk
    by_cases hcond : ((it.attr "id").isSome && (it.attr "href").isSome) = true
    · obtain ⟨a, hid⟩ := Option.isSome_iff_exists.mp (Bool.and_elim_left hcond)
      obtain ⟨h, hhref⟩ := Option.isSome_iff_exists.mp (Bool.and_elim_right hcond)
      have hbyId : (manifestStep base st it).byId = (a, joinPath base h) :: st.byId := by
        rw [manifestStep_byId, if_pos hcond]
        simp [hid, hhref]
      have hbyPath : (manifestStep base st it).byPath =
          (joinPath base h, it.attr "media-type") :: st.byPath := by
        rw [manifestStep_byPath, if_pos hcond]
        simp [hhref]
      rw [hbyId, lookupA_cons] at hlk
      rw [hbyPath, lookupA_cons]
      by_cases hai : (a == i) = true
      · rw [if_pos hai] at hlk
        have hp : p = joinPath base h := by
          injection hlk.symm
        rw [hp]
        simp
      · rw [if_neg hai] at hlk
        by_cases hpp : (joinPath base h == p) = true
        · rw [if_pos hpp]; simp
        · rw [if_neg hpp]; exact hinv i p hlk
    · have hbyId : (manifestStep base st it).byId = st.byId := by
        rw [manifestStep_byId, if_neg hcond]
      have hbyPath : (manifestStep base st it).byPath = st.byPath := by
        rw [manifestStep_byPath, if_neg hcond]
      rw [hbyId] at hlk
      rw [hbyPath]
      exact hinv i p hlk

/-- Every key of `manifest_by_path` has the joined-path shape, throughout
the manifest fold. -/
theorem byPath_keys_shape (base : String) :
    ∀ (items : List Xml) (st : ManifestResult),
      (∀ q ∈ st.byPath, ∃ h, q.1 = joinPath base h) →
      ∀ q ∈ (items.foldl (manifestStep base) st).byPath, ∃ h, q.1 = joinPath base h := by
  intro items
  induction items with
  | nil => intro st hinv; exact hinv
  | cons it rest ih =>
    intro st hinv
    rw [List.foldl_cons]
    apply ih
    intro q hq
    rw [manifestStep_byPath] at hq
    by_cases hcond : ((it.attr "id").isSome && (it.attr "href").isSome) = true
    · rw [if_pos hcond] at hq
      rcases List.mem_cons.mp hq with h1 | h1
      · exact ⟨(it.attr "href").getD "", by rw [h1]⟩
      · exact hinv q h1
    · rw [if_neg hcond] at hq
      exact hinv q hq

/-! ## Claim C2 -/

/-- A manifest item with `properties="cover-image"` and an `href`. -/
def coverItemFull : Xml :=
  .elem none "item" [⟨"href", "a.png"⟩, ⟨"properties", "cover-image"⟩] []

/-- A manifest item with `properties="cover-image"` and no `href`. -/
def coverItemBare : Xml :=
  .elem none "item" [⟨"properties", "cover-image"⟩] []

/-- A manifest holding only the full cover item. -/
def mfCoverOne : Xml := .elem none "manifest" [] [coverItemFull]

/-- The same manifest followed by the `href`-less cover item. -/
def mfCoverTwo : Xml := .elem none "manifest" [] [coverItemFull, coverItemBare]

/-- C2, counterexample: an item with `properties="cover-image"` but no `href`
does change `cover_image_path`: alone, the first item yields `some "b/a.png"`,
but appending the `href`-less cover item resets the result to `none`. -/
theorem c2_cover_reset_counterexample :
    (parse_manifest mfCoverOne "b").cover_image_path = some "b/a.png" ∧
    (parse_manifest mfCoverTwo "b").cover_image_path = none :=
  ⟨rfl, rfl⟩

/-- C2, amended: `cover_image_path` is decided by the last manifest item in
document order whose `properties` equals exactly `"cover-image"`: it becomes
`base/href` when that item has an `href` and `none` when it lacks one (the
item resets the field); with no such item it stays `none`. -/
theorem cover_image_last_writer (mf : Xml) (base : String) :
    (parse_manifest mf base).cover_image_path =
      ((mf.childList.filter (fun n => n.isTag "item")).reverse.find?
          (fun n => n.attr "properties" == some "cover-image")).bind
        (fun it => (it.attr "href").map (fun h => joinPath base h)) := by
  unfold parse_manifest
  rw [foldl_cover]
  cases hfind : (mf.childList.filter (fun n => n.isTag "item")).reverse.find?
      (fun n => n.attr "properties" == some "cover-image") <;> simp

/-! ## Claim C10 -/

/-- C10: duplicates in the manifest resolve last-writer-wins, in document
order: `manifest_by_id` lookup, `manifest_by_path` lookup, and
`toc_nav_doc_path` are each decided by the last qualifying item (the first of
the reversed item list). -/
theorem manifest_last_writer_wins (mf : Xml) (base : String) :
    (∀ i, lookupA (parse_manifest mf base).byId i =
        ((mf.childList.filter (fun n => n.isTag "item")).reverse.find? (fun n =>
            ((n.attr "id").isSome && (n.attr "href").isSome) && n.attr "id" == some i)).map
          (fun n => joinPath base ((n.attr "href").getD ""))) ∧
    (∀ p, lookupA (parse_manifest mf base).byPath p =
        ((mf.childList.filter (fun n => n.isTag "item")).reverse.find? (fun n =>
            ((n.attr "id").isSome && (n.attr "href").isSome) &&
              joinPath base ((n.attr "href").getD "") == p)).map
          (fun n => n.attr "media-type")) ∧
    ((parse_manifest mf base).toc_nav_doc_path =
        ((mf.childList.filter (fun n => n.isTag "item")).reverse.find?
            (fun n => n.attr "properties" == some "nav")).bind
          (fun it => (it.attr "href").map (fun h => joinPath base h))) := by
  refine ⟨?_, ?_, ?_⟩
  · intro i
    unfold parse_manifest
    rw [lookup_byId_fold]
    exact Option.or_none
  · intro p
    unfold parse_manifest
    rw [lookup_byPath_fold]
    exact Option.or_none
  · unfold parse_manifest
    rw [foldl_nav]
    cases hfind : (mf.childList.filter (fun n => n.isTag "item")).reverse.find?
        (fun n => n.attr "properties" == some "nav") <;> simp

/-! ## Helper lemmas about `pkgDocFrom` and `parse_spine` -/

/-- Unfolding a successful `pkgDocFrom` into its section parses. -/
theorem pkgDocFrom_ok (pkg : Xml) (base : String) (r : PackageDocument)
    (mdEl mfEl spEl : Xml)
    (hmd : pkg.childList.find? (fun n => n.isTag "metadata") = some mdEl)
    (hmf : pkg.childList.find? (fun n => n.isTag "manifest") = some mfEl)
    (hsp : pkg.childList.find? (fun n => n.isTag "spine") = some spEl)
    (h : pkgDocFrom pkg base = Except.ok r) :
    r = { title := (parse_metadata mdEl).1,
          language := (parse_metadata mdEl).2,
          cover_image_path := (parse_manifest mfEl base).cover_image_path,
          spine := (parse_spine spEl (parse_manifest mfEl base).byId).2,
          manifest := (parse_manifest mfEl base).byPath,
          toc_ncx_path := (parse_spine spEl (parse_manifest mfEl base).byId).1.bind
            (fun i => lookupA (parse_manifest mfEl base).byId i),
          toc_nav_doc_path := (parse_manifest mfEl base).toc_nav_doc_path } := by
  rw [pkgDocFrom, hmd, hmf, hsp] at h
  injection h with h
  exact h.symm

/-- The spine of `parse_spine` as one `filterMap`: the resolved `idref`
images of the `itemref` children, unresolved ones dropped. -/
theorem parse_spine_eq_filterMap (spEl : Xml) (byId : List (String × String)) :
    (parse_spine spEl byId).2 = spEl.childList.filterMap (fun n =>
      if n.isTag "itemref" then (n.attr "idref").bind (fun i => lookupA byId i)
      else none) := by
  show ((spEl.childList.filter _).map _) = _
  induction spEl.childList with
  | nil => rfl
  | cons c rest ih =>
    rw [List.filter_cons, List.filterMap_cons]
    cases hit : c.isTag "itemref" with
    | false => simpa [hit] using ih
    | true =>
      cases hidref : c.attr "idref" with
      | none => simpa [hit, hidref] using ih
      | some i =>
        cases hlk : lookupA byId i with
        | none => simpa [hit, hidref, hlk] using ih
        | some v =>
          simp only [hit, hidref, hlk, Option.isSome_some, Bool.and_true, Bool.and_self,
            if_pos, Option.some_bind, List.map_cons, Option.getD_some]
          rw [ih]

/-- The spine length equals the number of `itemref` children whose `idref`
is present and resolves. -/
theorem parse_spine_length (spEl : Xml) (byId : List (String × String)) :
    (parse_spine spEl byId).2.length = (spEl.childList.filter (fun n =>
      n.isTag "itemref" &&
        ((n.attr "idref").bind (fun i => lookupA byId i)).isSome)).length := by
  show ((spEl.childList.filter _).map _).length = _
  rw [List.length_map]
  congr 1
  apply List.filter_congr
  intro n _
  cases hidref : n.attr "idref" <;> simp [hidref]

/-! ## Claims C3, C4, C9 over `pkgDocFrom` -/

/-- C3: `ncx_id` arises only from `toc="ncx"` literally; any other `toc`
value gives `toc_ncx_path = none`, and the literal value resolves through
`manifest_by_id` at the key `"ncx"`. -/
theorem spine_toc_ncx_literal (pkg : Xml) (base : String) (r : PackageDocument)
    (mdEl mfEl spEl : Xml)
    (hmd : pkg.childList.find? (fun n => n.isTag "metadata") = some mdEl)
    (hmf : pkg.childList.find? (fun n => n.isTag "manifest") = some mfEl)
    (hsp : pkg.childList.find? (fun n => n.isTag "spine") = some spEl)
    (h : pkgDocFrom pkg base = Except.ok r) :
    (spEl.attr "toc" ≠ some "ncx" → r.toc_ncx_path = none) ∧
    (spEl.attr "toc" = some "ncx" →
      r.toc_ncx_path = lookupA (parse_manifest mfEl base).byId "ncx") := by
  have hr := pkgDocFrom_ok pkg base r mdEl mfEl spEl hmd hmf hsp h
  constructor
  · intro hne
    rw [hr]
    show (parse_spine spEl (parse_manifest mfEl base).byId).1.bind
      (fun i => lookupA (parse_manifest mfEl base).byId i) = none
    simp only [parse_spine]
    cases htoc : spEl.attr "toc" with
    | none => rfl
    | some t =>
      have ht : (t == "ncx") = false := by
        cases hb : t == "ncx" with
        | false => rfl
        | true => exact absurd (by rw [htoc, eq_of_beq hb]) hne
      simp [htoc, ht]
      intro he
      rw [he] at ht
      simp at ht
  · intro heq
    rw [hr]
    show (parse_spine spEl (parse_manifest mfEl base).byId).1.bind
      (fun i => lookupA (parse_manifest mfEl base).byId i) =
        lookupA (parse_manifest mfEl base).byId "ncx"
    simp only [parse_spine]
    simp [heq]

/-- C4: the produced spine is exactly, in document order, the
`manifest_by_id` images of the `itemref` children whose `idref` is present
and resolves; unresolved ones are dropped silently, so the spine length is
the count of resolvable `idref`s. -/
theorem spine_resolved_itemrefs (pkg : Xml) (base : String) (r : PackageDocument)
    (mdEl mfEl spEl : Xml)
    (hmd : pkg.childList.find? (fun n => n.isTag "metadata") = some mdEl)
    (hmf : pkg.childList.find? (fun n => n.isTag "manifest") = some mfEl)
    (hsp : pkg.childList.find? (fun n => n.isTag "spine") = some spEl)
    (h : pkgDocFrom pkg base = Except.ok r) :
    r.spine = spEl.childList.filterMap (fun n =>
      if n.isTag "itemref" then
        (n.attr "idref").bind (fun i => lookupA (parse_manifest mfEl base).byId i)
      else none) ∧
    r.spine.length = (spEl.childList.filter (fun n =>
      n.isTag "itemref" &&
        ((n.attr "idref").bind (fun i => lookupA (parse_manifest mfEl base).byId i)).isSome)).length := by
  have hr := pkgDocFrom_ok pkg base r mdEl mfEl spEl hmd hmf hsp h
  constructor
  · rw [hr]
    show (parse_spine spEl (parse_manifest mfEl base).byId).2 = _
    exact parse_spine_eq_filterMap spEl (parse_manifest mfEl base).byId
  · rw [hr]
    show (parse_spine spEl (parse_manifest mfEl base).byId).2.length = _
    exact parse_spine_length spEl (parse_manifest mfEl base).byId

/-- C9: a `toc_ncx_path` produced by the package-document parser is always a
key of the surfaced manifest mapping. -/
theorem toc_ncx_path_in_manifest (pkg : Xml) (base : String) (r : PackageDocument)
    (mdEl mfEl spEl : Xml)
    (hmd : pkg.childList.find? (fun n => n.isTag "metadata") = some mdEl)
    (hmf : pkg.childList.find? (fun n => n.isTag "manifest") = some mfEl)
    (hsp : pkg.childList.find? (fun n => n.isTag "spine") = some spEl)
    (h : pkgDocFrom pkg base = Except.ok r)
    (p : String) (hp : r.toc_ncx_path = some p) :
    (lookupA r.manifest p).isSome = true := by
  have hr := pkgDocFrom_ok pkg base r mdEl mfEl spEl hmd hmf hsp h
  rw [hr] at hp ⊢
  have hp' : (parse_spine spEl (parse_manifest mfEl base).byId).1.bind
      (fun i => lookupA (parse_manifest mfEl base).byId i) = some p := hp
  show (lookupA (parse_manifest mfEl base).byPath p).isSome = true
  obtain ⟨i, _, hlk⟩ := Option.bind_eq_some.mp hp'
  exact byId_byPath_sync base _ _ (fun i p hlkp => by simp [lookupA] at hlkp) i p hlk

/-! ## A concrete package document for witnesses -/

/-- A concrete `<metadata>` with DC title and language. -/
def mdW : Xml :=
  .elem none "metadata" [] [
    .elem (some NAMESPACE_DC) "title" [] [.text " Jane Eyre "],
    .elem (some NAMESPACE_DC) "language" [] [.text " en-GB "]]

/-- A concrete `<manifest>` with a nav item, an NCX item and a chapter. -/
def mfW : Xml :=
  .elem none "manifest" [] [
    .elem none "item" [⟨"href", "toc.xhtml"⟩, ⟨"id", "tocx"⟩, ⟨"properties", "nav"⟩] [],
    .elem none "item" [⟨"href", "toc.ncx"⟩, ⟨"id", "ncx"⟩] [],
    .elem none "item" [⟨"href", "c1.xhtml"⟩, ⟨"id", "c1"⟩] []]

/-- A concrete `<spine>` with `toc="ncx"`, one resolvable and one
unresolvable `itemref`. -/
def spW : Xml :=
  .elem none "spine" [⟨"toc", "ncx"⟩] [
    .elem none "itemref" [⟨"idref", "c1"⟩] [],
    .elem none "itemref" [⟨"idref", "missing"⟩] []]

/-- The concrete `<package>` root. -/
def pkgW : Xml := .elem none "package" [] [mdW, mfW, spW]

/-- The record `pkgDocFrom pkgW "b"` evaluates to. -/
def rW : PackageDocument :=
  { title := "Jane Eyre", language := "en-GB", cover_image_path := none,
    spine := ["b/c1.xhtml"],
    manifest := [("b/c1.xhtml", none), ("b/toc.ncx", none), ("b/toc.xhtml", none)],
    toc_ncx_path := some "b/toc.ncx", toc_nav_doc_path := some "b/toc.xhtml" }

/-- C3 witness: on the concrete package, `toc="ncx"` resolves through
`manifest_by_id` at the key `"ncx"`. -/
theorem spine_toc_ncx_literal_witness :
    rW.toc_ncx_path = lookupA (parse_manifest mfW "b").byId "ncx" :=
  (spine_toc_ncx_literal pkgW "b" rW mdW mfW spW rfl rfl rfl rfl).2 rfl

/-- C4 witness: on the concrete package, the spine is the resolved-idref
image list (the `missing` idref dropped). -/
theorem spine_resolved_itemrefs_witness :
    rW.spine = spW.childList.filterMap (fun n =>
      if n.isTag "itemref" then
        (n.attr "idref").bind (fun i => lookupA (parse_manifest mfW "b").byId i)
      else none) :=
  (spine_resolved_itemrefs pkgW "b" rW mdW mfW spW rfl rfl rfl rfl).1

/-- C9 witness: on the concrete package, the produced `toc_ncx_path` is a
key of the surfaced manifest. -/
theorem toc_ncx_path_in_manifest_witness :
    (lookupA rW.manifest "b/toc.ncx").isSome = true :=
  toc_ncx_path_in_manifest pkgW "b" rW mdW mfW spW rfl rfl rfl rfl "b/toc.ncx" rfl

/-! ## Claim C7 -/

/-- C7: title and language come from the first namespace-qualified DC child
(later DC title alternates make no difference), using its direct text content
trimmed at both ends; a missing element yields the empty string. -/
theorem metadata_first_dc_child (md : Xml) :
    (md.childList.find? (fun n => n.isTagNS NAMESPACE_DC "title") = none →
      (parse_metadata md).1 = "") ∧
    (md.childList.find? (fun n => n.isTagNS NAMESPACE_DC "language") = none →
      (parse_metadata md).2 = "") ∧
    (∀ (pre post : List Xml) (tEl : Xml),
      md.childList = pre ++ tEl :: post →
      (∀ c ∈ pre, c.isTagNS NAMESPACE_DC "title" = false) →
      tEl.isTagNS NAMESPACE_DC "title" = true →
      (parse_metadata md).1 = trimS (tEl.textContent.getD "")) ∧
    (∀ (pre post : List Xml) (tEl : Xml),
      md.childList = pre ++ tEl :: post →
      (∀ c ∈ pre, c.isTagNS NAMESPACE_DC "language" = false) →
      tEl.isTagNS NAMESPACE_DC "language" = true →
      (parse_metadata md).2 = trimS (tEl.textContent.getD "")) := by
  refine ⟨?_, ?_, ?_, ?_⟩
  · intro hnone
    show ((md.childList.find? (fun n => n.isTagNS NAMESPACE_DC "title")).map
      (fun n => trimS (n.textContent.getD ""))).getD "" = ""
    rw [hnone]; rfl
  · intro hnone
    show ((md.childList.find? (fun n => n.isTagNS NAMESPACE_DC "language")).map
      (fun n => trimS (n.textContent.getD ""))).getD "" = ""
    rw [hnone]; rfl
  · intro pre post tEl hsplit hpre ht
    show ((md.childList.find? (fun n => n.isTagNS NAMESPACE_DC "title")).map
      (fun n => trimS (n.textContent.getD ""))).getD "" = _
    rw [hsplit, List.find?_append]
    have hprenone : pre.find? (fun n => n.isTagNS NAMESPACE_DC "title") = none :=
      List.find?_eq_none.mpr (fun x hx => by simp [hpre x hx])
    have hfind : List.find? (fun n => n.isTagNS NAMESPACE_DC "title") (tEl :: post) =
        some tEl := by
      simp [List.find?_cons, ht]
    rw [hprenone, Option.none_or, hfind]
    rfl
  · intro pre post tEl hsplit hpre ht
    show ((md.childList.find? (fun n => n.isTagNS NAMESPACE_DC "language")).map
      (fun n => trimS (n.textContent.getD ""))).getD "" = _
    rw [hsplit, List.find?_append]
    have hprenone : pre.find? (fun n => n.isTagNS NAMESPACE_DC "language") = none :=
      List.find?_eq_none.mpr (fun x hx => by simp [hpre x hx])
    have hfind : List.find? (fun n => n.isTagNS NAMESPACE_DC "language") (tEl :: post) =
        some tEl := by
      simp [List.find?_cons, ht]
    rw [hprenone, Option.none_or, hfind]
    rfl

/-- A concrete `<metadata>` with a namespace-less decoy title, a first DC
title and a DC subtitle alternate. -/
def mdW7 : Xml :=
  .elem none "metadata" [] [
    .elem none "title" [] [.text "wrong"],
    .elem (some NAMESPACE_DC) "title" [] [.text " Jane Eyre "],
    .elem (some NAMESPACE_DC) "title" [⟨"id", "subtitle"⟩] [.text "An Autobiography"]]

/-- C7 witness: on the concrete metadata with a leading no-namespace `title`
and a trailing DC subtitle, the first DC title wins and is trimmed. -/
theorem metadata_first_dc_child_witness :
    (parse_metadata mdW7).1 = "Jane Eyre" :=
  ((metadata_first_dc_child mdW7).2.2.1
      [Xml.elem none "title" [] [Xml.text "wrong"]]
      [Xml.elem (some NAMESPACE_DC) "title" [⟨"id", "subtitle"⟩] [Xml.text "An Autobiography"]]
      (Xml.elem (some NAMESPACE_DC) "title" [] [Xml.text " Jane Eyre "])
      rfl (by decide) rfl).trans rfl

/-! ## Helper lemmas about the TOC parsers -/

/-- The fused `navPoint` scan is the `filter`-then-`map` of the source. -/
theorem parseNavPointFilter_eq (base : String) :
    ∀ cs : List Xml, parseNavPointFilter base cs =
      (cs.filter (fun n => n.isTag "navPoint")).map (parseNavPoint base) := by
  intro cs
  induction cs with
  | nil => rfl
  | cons c rest ih =>
    rw [parseNavPointFilter, List.filter_cons]
    cases h : c.isTag "navPoint" <;> simp [h, ih]

/-- The fused `li` scan is the `filter`-then-`map` of the source. -/
theorem parseLiFilter_eq (base : String) :
    ∀ cs : List Xml, parseLiFilter base cs =
      (cs.filter (fun n => n.isTag "li")).map (parseLi base) := by
  intro cs
  induction cs with
  | nil => rfl
  | cons c rest ih =>
    rw [parseLiFilter, List.filter_cons]
    cases h : c.isTag "li" <;> simp [h, ih]

/-- The fused `ol` scan finds the first `ol` sibling and parses its `li`
children. -/
theorem firstOlChildren_eq (base : String) :
    ∀ cs : List Xml, firstOlChildren base cs =
      (cs.find? (fun n => n.isTag "ol")).map
        (fun ol => parseLiFilter base ol.childList) := by
  intro cs
  induction cs with
  | nil => rfl
  | cons c rest ih =>
    cases c with
    | text s =>
      rw [firstOlChildren, List.find?_cons_of_neg _ (by simp [Xml.isTag])]
      exact ih
    | elem ns t ats ocs =>
      rw [firstOlChildren]
      cases h : t == "ol" with
      | true =>
        rw [List.find?_cons_of_pos _ (by simp [Xml.isTag, h])]
        simp [Xml.childList]
      | false =>
        rw [if_neg (by simp), List.find?_cons_of_neg _ (by simp [Xml.isTag, h])]
        exact ih

/-- The `children` field of a `parse_li` result is the first-`ol` scan. -/
theorem parseLi_children (base : String) (li : Xml) :
    (parseLi base li).children = firstOlChildren base li.childList := by
  cases li <;> rfl

/-- The `children` field of a `parse_nav_point` result: the parsed direct
`navPoint` children, empty collapsed to `none`. -/
theorem parseNavPoint_children (base : String) (np : Xml) :
    (parseNavPoint base np).children =
      (if (parseNavPointFilter base np.childList).isEmpty then none
       else some (parseNavPointFilter base np.childList)) := by
  cases np <;> rfl

/-- `allNodes` unfolds to the node followed by its children's nodes. -/
theorem allNodes_eq (t : TocNode) :
    t.allNodes = t :: allNodesOpt t.children := by
  cases t
  rfl

/-- Every node is among its own `allNodes`. -/
theorem self_mem_allNodes (t : TocNode) : t ∈ t.allNodes := by
  rw [allNodes_eq]
  exact List.mem_cons_self _ _

/-- Membership in `allNodesList` factors through one root of the list. -/
theorem mem_allNodesList :
    ∀ (l : List TocNode) (t : TocNode),
      t ∈ allNodesList l ↔ ∃ n ∈ l, t ∈ n.allNodes := by
  intro l
  induction l with
  | nil => intro t; simp [allNodesList]
  | cons n rest ih =>
    intro t
    rw [allNodesList, List.mem_append, ih]
    constructor
    · rintro (h | ⟨m, hm, ht⟩)
      · exact ⟨n, List.mem_cons_self _ _, h⟩
      · exact ⟨m, List.mem_cons_of_mem _ hm, ht⟩
    · rintro ⟨m, hm, ht⟩
      rcases List.mem_cons.mp hm with h1 | h1
      · subst h1; exact Or.inl ht
      · exact Or.inr ⟨m, h1, ht⟩

/-- A child element is structurally smaller than its parent. -/
theorem sizeOf_lt_of_mem_childList {c x : Xml} (h : c ∈ x.childList) :
    sizeOf c < sizeOf x := by
  cases x with
  | text s => simp [Xml.childList] at h
  | elem ns t ats cs =>
    simp only [Xml.childList] at h
    have h1 := List.sizeOf_lt_of_mem h
    simp only [Xml.elem.sizeOf_spec]
    omega

/-- An `Xml` value has positive size. -/
theorem sizeOf_xml_pos (x : Xml) : 0 < sizeOf x := by
  cases x <;> simp_arith

/-- NCX trees never contain a node with `children = some []`, to any depth
(the empty recursion is collapsed to `none`). -/
theorem ncx_no_empty_children_aux (base : String) :
    ∀ (k : Nat) (np : Xml), sizeOf np ≤ k →
      ∀ t ∈ (parseNavPoint base np).allNodes, t.children ≠ some [] := by
  intro k
  induction k with
  | zero =>
    intro np hsize
    exact absurd (Nat.lt_of_lt_of_le (sizeOf_xml_pos np) hsize) (by omega)
  | succ k ih =>
    intro np hsize t ht
    rw [allNodes_eq] at ht
    rcases List.mem_cons.mp ht with hroot | hdeep
    · subst hroot
      rw [parseNavPoint_children]
      by_cases hemp : (parseNavPointFilter base np.childList).isEmpty = true
      · rw [if_pos hemp]; simp
      · rw [if_neg hemp]
        intro hcon
        injection hcon with hcon
        rw [hcon] at hemp
        exact hemp rfl
    · rw [parseNavPoint_children] at hdeep
      by_cases hemp : (parseNavPointFilter base np.childList).isEmpty = true
      · rw [if_pos hemp] at hdeep
        simp [allNodesOpt] at hdeep
      · rw [if_neg hemp] at hdeep
        have hdeep' : t ∈ allNodesList (parseNavPointFilter base np.childList) := hdeep
        obtain ⟨n, hn, htn⟩ := (mem_allNodesList _ t).mp hdeep'
        rw [parseNavPointFilter_eq] at hn
        obtain ⟨c, hc, hcn⟩ := List.mem_map.mp hn
        have hcmem : c ∈ np.childList := List.mem_of_mem_filter hc
        have hlt : sizeOf c < sizeOf np := sizeOf_lt_of_mem_childList hcmem
        subst hcn
        exact ih c (by omega) t htn

/-! ## Claim C1 -/

/-- A nav-doc `li` whose only child is an empty `ol`. -/
def liEmptyOl : Xml := .elem none "li" [] [.elem none "ol" [] []]

/-- C1, counterexample: the nav-doc parser can produce `children = some []`:
an `li` with an empty direct `ol` child yields the empty sequence, not
`none`. -/
theorem navdoc_empty_children_counterexample :
    (parseLi "b" liEmptyOl).children = some [] := rfl

/-- C1, amended: for the NCX parser, `children` is `none` exactly when no
direct nested `navPoint` exists and is never an empty sequence, at any
depth; for the nav-doc parser, `children` is `none` exactly when no direct
`ol` child exists, but a present `ol` yields the possibly empty parsed
sequence. -/
theorem toc_children_none_iff (base : String) :
    (∀ np : Xml, (parseNavPoint base np).children = none ↔
       np.childList.filter (fun n => n.isTag "navPoint") = []) ∧
    (∀ (np : Xml) (t : TocNode), t ∈ (parseNavPoint base np).allNodes →
       t.children ≠ some []) ∧
    (∀ li : Xml, (parseLi base li).children = none ↔
       li.childList.find? (fun n => n.isTag "ol") = none) := by
  refine ⟨?_, ?_, ?_⟩
  · intro np
    rw [parseNavPoint_children, parseNavPointFilter_eq]
    by_cases hfil : np.childList.filter (fun n => n.isTag "navPoint") = []
    · simp [hfil]
    · simp [hfil, List.isEmpty_iff]
  · intro np t ht
    exact ncx_no_empty_children_aux base (sizeOf np) np (Nat.le_refl _) t ht
  · intro li
    rw [parseLi_children, firstOlChildren_eq]
    cases h : li.childList.find? (fun n => n.isTag "ol") <;> simp [h]

/-- An NCX `navPoint` with one nested `navPoint`. -/
def npW : Xml := .elem none "navPoint" [] [.elem none "navPoint" [] []]

/-- C1 witness: on the concrete nested `navPoint`, the root node of the
parsed tree never carries `children = some []`. -/
theorem toc_children_none_iff_witness :
    (parseNavPoint "b" npW).children ≠ some [] :=
  (toc_children_none_iff "b").2.1 npW (parseNavPoint "b" npW)
    (self_mem_allNodes _)

/-! ## Helper lemmas about the façade -/

/-- TOC selection never produces the `no rootfile found` error. -/
theorem tocFor_ne_noRootFile (ar : Archive) (base : String) (pkg : PackageDocument) :
    tocFor ar base pkg ≠ Except.error MetaError.noRootFile := by
  unfold tocFor
  split
  · split
    · simp
    · split <;> simp
  · split
    · split
      · simp
      · split <;> simp
    · simp

/-- The pipeline from a chosen root-file never produces the
`no rootfile found` error. -/
theorem metaFromRoot_ne_noRootFile (ar : Archive) (rf : RootFile) :
    metaFromRoot ar rf ≠ Except.error MetaError.noRootFile := by
  unfold metaFromRoot
  split
  · simp
  · split
    · simp
    · split
      · rename_i e htoc
        intro hcon
        injection hcon with hcon
        rw [hcon] at htoc
        exact tocFor_ne_noRootFile ar rf.base_path _ htoc
      · simp

/-! ## Claim C5 -/

/-- C5: once the container is read and parsed, `meta()` fails with the
`no rootfile found` error exactly when the root-file list is empty;
otherwise only the first root-file drives the rest of the pipeline; and the
TOC source selection is strict priority: nav-doc, else NCX, else the
`no toc found` error. -/
theorem meta_container_behaviour (ar : Archive) (cdoc : Xml)
    (h : ar.entries CONTAINER_PATH = some cdoc) :
    ((meta ar = Except.error MetaError.noRootFile) ↔ containerFrom cdoc = []) ∧
    (∀ rf rest, containerFrom cdoc = rf :: rest → meta ar = metaFromRoot ar rf) ∧
    (∀ base pkg,
      (pkg.toc_nav_doc_path = none → pkg.toc_ncx_path = none →
        tocFor ar base pkg = Except.error MetaError.noToc) ∧
      (∀ p d cs, pkg.toc_nav_doc_path = some p → ar.entries p = some d →
        navDocParse d base = Except.ok cs → tocFor ar base pkg = Except.ok ⟨cs⟩) ∧
      (∀ p d cs, pkg.toc_nav_doc_path = none → pkg.toc_ncx_path = some p →
        ar.entries p = some d → ncxParse d base = Except.ok cs →
        tocFor ar base pkg = Except.ok ⟨cs⟩)) := by
  refine ⟨?_, ?_, ?_⟩
  · constructor
    · intro hm
      simp only [meta, h] at hm
      cases hroots : containerFrom cdoc with
      | nil => rfl
      | cons rf rest =>
        simp only [hroots] at hm
        exact absurd hm (metaFromRoot_ne_noRootFile ar rf)
    · intro hempty
      simp only [meta, h, hempty]
  · intro rf rest hroots
    simp only [meta, h, hroots]
  · intro base pkg
    refine ⟨?_, ?_, ?_⟩
    · intro hnav hncx
      simp only [tocFor, hnav, hncx]
    · intro p d cs hnav hent hparse
      simp only [tocFor, hnav, hent, hparse]
    · intro p d cs hnav hncx hent hparse
      simp only [tocFor, hnav, hncx, hent, hparse]

/-- A concrete `container.xml` with a single root-file. -/
def cdocW : Xml :=
  .elem none "container" [] [
    .elem none "rootfiles" [] [
      .elem none "rootfile" [⟨"full-path", "b/content.opf"⟩] []]]

/-- The root-file record parsed from `cdocW`. -/
def rfW : RootFile := ⟨"b", "b/content.opf"⟩

/-- A concrete nav-doc with one entry. -/
def navDocW : Xml :=
  .elem none "html" [] [
    .elem none "nav" [⟨"id", "toc"⟩] [
      .elem none "ol" [] [
        .elem none "li" [] [.elem none "a" [⟨"href", "c1.xhtml"⟩] [.text "One"]]]]]

/-- A concrete archive: container, package document and nav-doc. -/
def arW : Archive :=
  ⟨fun p =>
    if p == CONTAINER_PATH then some cdocW
    else if p == "b/content.opf" then some pkgW
    else if p == "b/toc.xhtml" then some navDocW
    else none⟩

/-- C5 witness: on the concrete archive the container holds one root-file,
so `meta` continues from it (and does not fail with `noRootFile`). -/
theorem meta_container_behaviour_witness :
    meta arW = metaFromRoot arW rfW :=
  (meta_container_behaviour arW cdocW rfl).2.1 rfW [] rfl

/-! ## Path-shape helper lemmas -/

/-- Values of `manifest_by_id` always have the joined-path shape. -/
theorem byId_values_shape (mf : Xml) (base : String) (i p : String)
    (h : lookupA (parse_manifest mf base).byId i = some p) :
    ∃ hr, p = joinPath base hr := by
  rw [show (parse_manifest mf base).byId =
      ((mf.childList.filter (fun n => n.isTag "item")).foldl
        (manifestStep base) ⟨none, none, [], []⟩).byId from rfl,
    lookup_byId_fold] at h
  simp only [lookupA, List.find?_nil, Option.map_none', Option.or_none] at h
  obtain ⟨n, _, hn⟩ := Option.map_eq_some'.mp h
  exact ⟨(n.attr "href").getD "", hn.symm⟩

/-- The `cover_image_path` of `parse_manifest` always has the joined-path
shape. -/
theorem cover_shape (mf : Xml) (base : String) (p : String)
    (h : (parse_manifest mf base).cover_image_path = some p) :
    ∃ hr, p = joinPath base hr := by
  rw [show (parse_manifest mf base).cover_image_path =
      ((mf.childList.filter (fun n => n.isTag "item")).foldl
        (manifestStep base) ⟨none, none, [], []⟩).cover_image_path from rfl,
    foldl_cover] at h
  cases hfind : (mf.childList.filter (fun n => n.isTag "item")).reverse.find?
      (fun n => n.attr "properties" == some "cover-image") with
  | none => rw [hfind] at h; simp at h
  | some n =>
    rw [hfind] at h
    simp only [Option.map_some', Option.getD_some] at h
    obtain ⟨hr, _, hp⟩ := Option.map_eq_some'.mp h
    exact ⟨hr, hp.symm⟩

/-- The `toc_nav_doc_path` of `parse_manifest` always has the joined-path
shape. -/
theorem nav_shape (mf : Xml) (base : String) (p : String)
    (h : (parse_manifest mf base).toc_nav_doc_path = some p) :
    ∃ hr, p = joinPath base hr := by
  rw [show (parse_manifest mf base).toc_nav_doc_path =
      ((mf.childList.filter (fun n => n.isTag "item")).foldl
        (manifestStep base) ⟨none, none, [], []⟩).toc_nav_doc_path from rfl,
    foldl_nav] at h
  cases hfind : (mf.childList.filter (fun n => n.isTag "item")).reverse.find?
      (fun n => n.attr "properties" == some "nav") with
  | none => rw [hfind] at h; simp at h
  | some n =>
    rw [hfind] at h
    simp only [Option.map_some', Option.getD_some] at h
    obtain ⟨hr, _, hp⟩ := Option.map_eq_some'.mp h
    exact ⟨hr, hp.symm⟩

/-- A `parse_li` node's own href, when present, has the joined-path shape. -/
theorem parseLi_href_shape (base : String) (li : Xml) (p : String)
    (h : (parseLi base li).href = some p) : ∃ hr, p = joinPath base hr := by
  cases li with
  | text s => exact absurd h (by simp [parseLi, TocNode.href])
  | elem ns t ats cs =>
    simp only [parseLi] at h
    cases hfa : cs.find? (fun c => c.isTag "a") with
    | some aEl =>
      rw [hfa] at h
      simp only [TocNode.href] at h
      obtain ⟨hr, _, hp⟩ := Option.map_eq_some'.mp h
      exact ⟨hr, hp.symm⟩
    | none =>
      rw [hfa] at h
      cases hfs : cs.find? (fun c : Xml => c.isTag "span") with
      | some spanEl => rw [hfs] at h; simp [TocNode.href] at h
      | none => rw [hfs] at h; simp [TocNode.href] at h

/-- A `parse_nav_point` node's own href, when present, has the joined-path
shape. -/
theorem parseNavPoint_href_shape (base : String) (np : Xml) (p : String)
    (h : (parseNavPoint base np).href = some p) : ∃ hr, p = joinPath base hr := by
  cases np with
  | text s => exact absurd h (by simp [parseNavPoint, TocNode.href])
  | elem ns t ats cs =>
    simp only [parseNavPoint, TocNode.href] at h
    obtain ⟨c, _, hc⟩ := Option.bind_eq_some.mp h
    obtain ⟨hr, _, hp⟩ := Option.map_eq_some'.mp hc
    exact ⟨hr, hp.symm⟩

/-- Every href anywhere in a nav-doc `parse_li` tree has the joined-path
shape. -/
theorem parseLi_deep_href_shape (base : String) :
    ∀ (k : Nat) (li : Xml), sizeOf li ≤ k →
      ∀ t ∈ (parseLi base li).allNodes, ∀ p, t.href = some p →
        ∃ hr, p = joinPath base hr := by
  intro k
  induction k with
  | zero =>
    intro li hsize
    exact absurd (Nat.lt_of_lt_of_le (sizeOf_xml_pos li) hsize) (by omega)
  | succ k ih =>
    intro li hsize t ht p hp
    rw [allNodes_eq] at ht
    rcases List.mem_cons.mp ht with hroot | hdeep
    · subst hroot
      exact parseLi_href_shape base li p hp
    · rw [parseLi_children, firstOlChildren_eq] at hdeep
      cases hfol : li.childList.find? (fun n => n.isTag "ol") with
      | none => rw [hfol] at hdeep; simp [allNodesOpt] at hdeep
      | some olEl =>
        rw [hfol] at hdeep
        have hdeep' : t ∈ allNodesList (parseLiFilter base olEl.childList) := hdeep
        obtain ⟨n, hn, htn⟩ := (mem_allNodesList _ t).mp hdeep'
        rw [parseLiFilter_eq] at hn
        obtain ⟨c, hc, hcn⟩ := List.mem_map.mp hn
        have hol : olEl ∈ li.childList := List.mem_of_find?_eq_some hfol
        have h1 : sizeOf olEl < sizeOf li := sizeOf_lt_of_mem_childList hol
        have h2 : sizeOf c < sizeOf olEl :=
          sizeOf_lt_of_mem_childList (List.mem_of_mem_filter hc)
        subst hcn
        exact ih c (by omega) t htn p hp

/-- Every href anywhere in an NCX `parse_nav_point` tree has the joined-path
shape. -/
theorem parseNavPoint_deep_href_shape (base : String) :
    ∀ (k : Nat) (np : Xml), sizeOf np ≤ k →
      ∀ t ∈ (parseNavPoint base np).allNodes, ∀ p, t.href = some p →
        ∃ hr, p = joinPath base hr := by
  intro k
  induction k with
  | zero =>
    intro np hsize
    exact absurd (Nat.lt_of_lt_of_le (sizeOf_xml_pos np) hsize) (by omega)
  | succ k ih =>
    intro np hsize t ht p hp
    rw [allNodes_eq] at ht
    rcases List.mem_cons.mp ht with hroot | hdeep
    · subst hroot
      exact parseNavPoint_href_shape base np p hp
    · rw [parseNavPoint_children] at hdeep
      by_cases hemp : (parseNavPointFilter base np.childList).isEmpty = true
      · rw [if_pos hemp] at hdeep
        simp [allNodesOpt] at hdeep
      · rw [if_neg hemp] at hdeep
        have hdeep' : t ∈ allNodesList (parseNavPointFilter base np.childList) := hdeep
        obtain ⟨n, hn, htn⟩ := (mem_allNodesList _ t).mp hdeep'
        rw [parseNavPointFilter_eq] at hn
        obtain ⟨c, hc, hcn⟩ := List.mem_map.mp hn
        have hlt : sizeOf c < sizeOf np :=
          sizeOf_lt_of_mem_childList (List.mem_of_mem_filter hc)
        subst hcn
        exact ih c (by omega) t htn p hp

/-! ## Claim C6 -/

/-- C6: with `base_path = base`, every produced path — spine entries,
manifest keys, `cover_image_path`, `toc_ncx_path`, `toc_nav_doc_path` and
every `TocNode.href` of either TOC parser — either starts with `base ++ "/"`
or equals the empty string (in fact the first disjunct always holds: every
path is the unconditional concatenation with a single slash). -/
theorem paths_prefixed_by_base (base : String) :
    (∀ (pkg : Xml) (r : PackageDocument) (mdEl mfEl spEl : Xml),
      pkg.childList.find? (fun n => n.isTag "metadata") = some mdEl →
      pkg.childList.find? (fun n => n.isTag "manifest") = some mfEl →
      pkg.childList.find? (fun n => n.isTag "spine") = some spEl →
      pkgDocFrom pkg base = Except.ok r →
      (∀ p ∈ r.spine, (∃ rest, p = base ++ "/" ++ rest) ∨ p = "") ∧
      (∀ q ∈ r.manifest, (∃ rest, q.1 = base ++ "/" ++ rest) ∨ q.1 = "") ∧
      (∀ p, r.cover_image_path = some p →
        (∃ rest, p = base ++ "/" ++ rest) ∨ p = "") ∧
      (∀ p, r.toc_ncx_path = some p →
        (∃ rest, p = base ++ "/" ++ rest) ∨ p = "") ∧
      (∀ p, r.toc_nav_doc_path = some p →
        (∃ rest, p = base ++ "/" ++ rest) ∨ p = "")) ∧
    (∀ (doc : Xml) (cs : List TocNode), navDocParse doc base = Except.ok cs →
      ∀ n ∈ cs, ∀ t ∈ n.allNodes, ∀ p, t.href = some p →
        (∃ rest, p = base ++ "/" ++ rest) ∨ p = "") ∧
    (∀ (doc : Xml) (cs : List TocNode), ncxParse doc base = Except.ok cs →
      ∀ n ∈ cs, ∀ t ∈ n.allNodes, ∀ p, t.href = some p →
        (∃ rest, p = base ++ "/" ++ rest) ∨ p = "") := by
  refine ⟨?_, ?_, ?_⟩
  · intro pkg r mdEl mfEl spEl hmd hmf hsp h
    have hr := pkgDocFrom_ok pkg base r mdEl mfEl spEl hmd hmf hsp h
    subst hr
    refine ⟨?_, ?_, ?_, ?_, ?_⟩
    · intro p hp
      have hp' : p ∈ (parse_spine spEl (parse_manifest mfEl base).byId).2 := hp
      rw [parse_spine_eq_filterMap] at hp'
      obtain ⟨n, _, hn⟩ := List.mem_filterMap.mp hp'
      by_cases hit : n.isTag "itemref" = true
      · rw [if_pos hit] at hn
        obtain ⟨i, _, hlk⟩ := Option.bind_eq_some.mp hn
        obtain ⟨hr, hshape⟩ := byId_values_shape mfEl base i p hlk
        exact Or.inl ⟨hr, hshape⟩
      · rw [if_neg hit] at hn
        cases hn
    · intro q hq
      have hq' : q ∈ (parse_manifest mfEl base).byPath := hq
      obtain ⟨hr, hshape⟩ := byPath_keys_shape base
        (mfEl.childList.filter (fun n => n.isTag "item")) ⟨none, none, [], []⟩
        (by intro x hx; cases hx) q hq'
      exact Or.inl ⟨hr, hshape⟩
    · intro p hp
      obtain ⟨hr, hshape⟩ := cover_shape mfEl base p hp
      exact Or.inl ⟨hr, hshape⟩
    · intro p hp
      have hp' : (parse_spine spEl (parse_manifest mfEl base).byId).1.bind
          (fun i => lookupA (parse_manifest mfEl base).byId i) = some p := hp
      obtain ⟨i, _, hlk⟩ := Option.bind_eq_some.mp hp'
      obtain ⟨hr, hshape⟩ := byId_values_shape mfEl base i p hlk
      exact Or.inl ⟨hr, hshape⟩
    · intro p hp
      obtain ⟨hr, hshape⟩ := nav_shape mfEl base p hp
      exact Or.inl ⟨hr, hshape⟩
  · intro doc cs hok n hn t ht p hp
    rw [navDocParse] at hok
    cases hnav : doc.descendants.find?
        (fun n => n.isTag "nav" && n.attr "id" == some "toc") with
    | none => simp only [hnav] at hok; exact Except.noConfusion hok
    | some navEl =>
      simp only [hnav] at hok
      cases hol : navEl.childList.find? (fun n => n.isTag "ol") with
      | none => simp only [hol] at hok; exact Except.noConfusion hok
      | some olEl =>
        simp only [hol] at hok
        injection hok with hok
        rw [← hok, parseLiFilter_eq] at hn
        obtain ⟨c, _, hcn⟩ := List.mem_map.mp hn
        subst hcn
        exact Or.inl
          (parseLi_deep_href_shape base (sizeOf c) c (Nat.le_refl _) t ht p hp)
  · intro doc cs hok n hn t ht p hp
    rw [ncxParse] at hok
    cases hnm : doc.descendants.find? (fun n => n.isTag "navMap") with
    | none => simp only [hnm] at hok; exact Except.noConfusion hok
    | some nmEl =>
      simp only [hnm] at hok
      injection hok with hok
      rw [← hok, parseNavPointFilter_eq] at hn
      obtain ⟨c, _, hcn⟩ := List.mem_map.mp hn
      subst hcn
      exact Or.inl
        (parseNavPoint_deep_href_shape base (sizeOf c) c (Nat.le_refl _) t ht p hp)

/-- C6 witness: on the concrete package, the produced `toc_nav_doc_path`
starts with the base followed by a slash. -/
theorem paths_prefixed_by_base_witness :
    (∃ rest, ("b/toc.xhtml" : String) = "b" ++ "/" ++ rest) ∨
      ("b/toc.xhtml" : String) = "" :=
  (((paths_prefixed_by_base "b").1 pkgW rW mdW mfW spW
      rfl rfl rfl rfl).2.2.2.2) "b/toc.xhtml" rfl
